import Mathlib
set_option maxHeartbeats 1000000

/-- Text: a Python string, modelled as its list of characters. -/
abbrev Str := List Char

/-- Whitespace characters recognised by Python's `str.strip`/`str.lstrip`
(restricted to the ASCII whitespace that can occur in a text line). -/
def isWs (c : Char) : Bool :=
  c = ' ' || c = '\t' || c = '\n' || c = '\r' || c = '\x0b' || c = '\x0c'

/-- Python `line.strip()`: remove leading and trailing whitespace. -/
def stripChars (l : Str) : Str :=
  ((l.dropWhile isWs).reverse.dropWhile isWs).reverse

/-- Embedding of `count_leading_spaces` (main.py line 17):
`len(line) - len(line.lstrip())`. -/
def count_leading_spaces (line : Str) : Nat :=
  line.length - (line.dropWhile isWs).length

/-- The in-memory tree (`OrgNode` of main.py).  `name` is the stripped
line text; `children` is the ordered child list; the `indent` field is a
ghost field recording the indentation level the parser used for the node
(`-1` for the synthetic root), needed to state the tree invariant. -/
inductive OrgNode : Type where
  | node : Str → Int → List OrgNode → OrgNode

/-- The node's (stripped) name. -/
def OrgNode.name : OrgNode → Str
  | .node n _ _ => n

/-- The indentation level recorded for the node. -/
def OrgNode.indent : OrgNode → Int
  | .node _ i _ => i

/-- The ordered list of children. -/
def OrgNode.children : OrgNode → List OrgNode
  | .node _ _ c => c

/-- Embedding of `parent.add_child(child)` (main.py line 12): append `child` as the
last child of `parent`. -/
def OrgNode.appendChild : OrgNode → OrgNode → OrgNode
  | .node n i cs, c => .node n i (cs ++ [c])

/-- The name of the synthetic root node. -/
def rootName : Str := "Root".toList

/-- The synthetic root in its initial state (no children yet). -/
def rootEntry : OrgNode := .node rootName (-1) []

/-- The pop loop of the parser (main.py line 34):
`while stack and stack[-1][1] >= indent: stack.pop()`.
The head of the list is the top of the stack.  Popping an entry attaches
it as the last child of the entry below it (the Python code attached the
child at creation time; the net effect on the final tree is the same
because an entry's child list is never extended after it is popped). -/
def popLoopAux (indent : Int) (top : OrgNode) : List OrgNode → List OrgNode
  | [] => if top.indent ≥ indent then [] else [top]
  | p :: rs =>
      if top.indent ≥ indent then popLoopAux indent (p.appendChild top) rs
      else top :: p :: rs

/-- The pop loop applied to a whole stack (head = top of stack). -/
def popLoop (indent : Int) : List OrgNode → List OrgNode
  | [] => []
  | top :: rest => popLoopAux indent top rest

/-- Processing of one line of the input file (main.py lines 26-39).
The state is `none` once the program has raised an uncaught exception
(`stack[-1]` on an empty stack). -/
def stepLine (stack : Option (List OrgNode)) (line : Str) : Option (List OrgNode) :=
  match stack with
  | none => none
  | some st =>
      if stripChars line = [] then some st
      else
        let indent : Int := (count_leading_spaces line : Int)
        match popLoop indent st with
        | [] => none
        | p :: rs => some (OrgNode.node (stripChars line) indent [] :: p :: rs)

/-- At end of file every still-open stack entry is attached to the entry
below it; the bottom entry is the synthetic root that `parse_org_file`
returns. -/
def collapseAux (top : OrgNode) : List OrgNode → OrgNode
  | [] => top
  | p :: rs => collapseAux (p.appendChild top) rs

/-- Collapse a whole stack into its bottom entry. -/
def collapseAll : List OrgNode → Option OrgNode
  | [] => none
  | top :: rest => some (collapseAux top rest)

/-- Embedding of `parse_org_file` (main.py line 21), as a function of the sequence of
lines of the file.  Returns `none` exactly when the Python code would
raise an uncaught `IndexError` from `stack[-1]`. -/
def parse_org_file (lines : List Str) : Option OrgNode :=
  (lines.foldl stepLine (some [rootEntry])).bind collapseAll

mutual

/-- The names of a subtree in pre-order (depth-first, children in
insertion order), the node's own name first. -/
def preorderNames : OrgNode → List Str
  | .node n _ cs => n :: preorderNamesList cs

/-- Pre-order names of a forest. -/
def preorderNamesList : List OrgNode → List Str
  | [] => []
  | c :: cs => preorderNames c ++ preorderNamesList cs

end

/-- The names of all nodes strictly below the given node, in pre-order. -/
def subNames (t : OrgNode) : List Str :=
  preorderNamesList t.children

/-- The text of one line of the indented listing:
`"  " * level + "- " + name` (main.py line 45). -/
def lineOf (level : Nat) (n : Str) : Str :=
  List.replicate (2 * level) ' ' ++ '-' :: ' ' :: n

mutual

/-- Embedding of `print_org_chart` (main.py line 44), as the list of lines it prints. -/
def print_org_chart : OrgNode → Nat → List Str
  | .node n _ cs => fun level => lineOf level n :: printChartChildren cs (level + 1)

/-- The listing lines of a forest of siblings at the given level. -/
def printChartChildren : List OrgNode → Nat → List Str
  | [] => fun _ => []
  | c :: rest => fun level => print_org_chart c level ++ printChartChildren rest level

end

/-- The reporting-relationship line `"{name} reports to {parent.name}"`
(main.py line 66). -/
def reportLine (n p : Str) : Str :=
  n ++ " reports to ".toList ++ p

mutual

/-- Embedding of `print_reporting_relationships` (main.py line 50), as the list of
lines it prints.  The Python code reads `node.parent`; in the embedding
the parent's name (or `none` when `parent` is `None`) is passed down the
recursion, exactly the data the function consults. -/
def print_reporting_relationships : OrgNode → Option Str → List Str
  | .node n _ cs => fun parentName =>
      (match parentName with
       | some p => if p = rootName then [] else [reportLine n p]
       | none => []) ++ reportChildren cs n

/-- Reporting lines of the children of a node with the given name. -/
def reportChildren : List OrgNode → Str → List Str
  | [] => fun _ => []
  | c :: rest => fun pn => print_reporting_relationships c (some pn) ++ reportChildren rest pn

end

/-- The Mermaid identifier `n{k}`. -/
def nId (k : Nat) : Str :=
  'n' :: (Nat.repr k).toList

/-- The Mermaid declaration line `\t{id}["{name}"]` (main.py line 118). -/
def mermaidDecl (id n : Str) : Str :=
  '\t' :: id ++ '[' :: '"' :: n ++ ['"', ']']

/-- The Mermaid edge line `\t{parent_id} --> {id}` (main.py line 122). -/
def mermaidEdge (pid id : Str) : Str :=
  '\t' :: pid ++ " --> ".toList ++ id

mutual

/-- Embedding of `_print_mermaid_nodes` (main.py line 93).  The Python counter is a
one-element list mutated in place; here it is threaded through the
recursion explicitly: the function returns its output lines together
with the final counter value. -/
def mermaidNode : OrgNode → Option Str → Nat → List Str × Nat
  | .node n _ cs => fun parent_id counter =>
      let current_id := nId counter
      let conn : List Str :=
        match parent_id with
        | some p => [mermaidEdge p current_id]
        | none => []
      let res := mermaidChildren cs current_id (counter + 1)
      (mermaidDecl current_id n :: conn ++ res.1, res.2)

/-- Helper: `_print_mermaid_nodes` applied to each child in order, threading the
counter. -/
def mermaidChildren : List OrgNode → Str → Nat → List Str × Nat
  | [] => fun _ counter => ([], counter)
  | c :: rest => fun pid counter =>
      let r1 := mermaidNode c (some pid) counter
      let r2 := mermaidChildren rest pid r1.2
      (r1.1 ++ r2.1, r2.2)

end

/-- Embedding of `print_mermaid_flowchart` (main.py line 71), as the list of lines it
prints.  Note: it renders only the subtree of the root's FIRST child
(`node.children[0]`), and prints nothing unless the given node is named
`"Root"` and has children. -/
def print_mermaid_flowchart (t : OrgNode) : List Str :=
  if t.name = rootName then
    match t.children with
    | c :: _ =>
        "```mermaid".toList :: "flowchart TB".toList ::
          (mermaidNode c none 0).1 ++ ["```".toList]
    | [] => []
  else []

mutual

/-- Number of nodes of a subtree. -/
def sizeN : OrgNode → Nat
  | .node _ _ cs => 1 + sizeForest cs

/-- Number of nodes of a forest. -/
def sizeForest : List OrgNode → Nat
  | [] => 0
  | c :: cs => sizeN c + sizeForest cs

end

mutual

/-- Modelled from the spec (§4.4): the Mermaid body in which each node's
identifier is `n{k}` where `k` is the node's position in the pre-order
depth-first enumeration of the rendered subtree (the subtree's own root
has position `pos`); each node yields a declaration line, and each node
with a parent in the subtree also yields an edge line. -/
def specMerNode : OrgNode → Option Str → Nat → List Str
  | .node n _ cs => fun pid pos =>
      mermaidDecl (nId pos) n ::
        (match pid with
         | some p => [mermaidEdge p (nId pos)]
         | none => []) ++ specMerChildren cs (nId pos) (pos + 1)

/-- Spec-side Mermaid body of a forest: the `k`-th sibling's subtree
starts at the position following all nodes of its elder siblings. -/
def specMerChildren : List OrgNode → Str → Nat → List Str
  | [] => fun _ _ => []
  | c :: rest => fun pid pos => specMerNode c (some pid) pos ++ specMerChildren rest pid (pos + sizeN c)

end

/-- The graphviz identifier `node_{k}` (main.py lines 160, 168). -/
def gvId (k : Nat) : Str :=
  "node_".toList ++ (Nat.repr k).toList

/-- Embedding of `node_ids[name] = ...` assignment when the name is absent
(main.py lines 159-160 and 167-168).  The Python dict is insertion
ordered; it is modelled as an association list in insertion order. -/
def assignId (ids : List (Str × Str)) (n : Str) : List (Str × Str) :=
  if (ids.lookup n).isSome then ids else ids ++ [(n, gvId ids.length)]

/-- Lookup `node_ids[name]` for a name known to be present. -/
def idStrOf (ids : List (Str × Str)) (n : Str) : Str :=
  (ids.lookup n).getD []

/-- The graph object built by `generate_svg_chart` (main.py line 145):
the `node_ids` dict, the emitted `dot.node(id, name)` statements and the
emitted `dot.edge(parentId, childId)` statements, in emission order. -/
structure DotState where
  ids : List (Str × Str)
  nodeStmts : List (Str × Str)
  edgeStmts : List (Str × Str)
deriving DecidableEq

mutual

/-- Embedding of `generate_svg_chart.add_nodes` (main.py line 149).  A node named
`"Root"` only forwards to its children; any other node is assigned an id
keyed by its NAME, declared, and connected to each child by an edge. -/
def add_nodes : OrgNode → DotState → DotState
  | .node n _ cs => fun st =>
      if n = rootName then addNodesForest cs st
      else
        let ids1 := assignId st.ids n
        let current_id := idStrOf ids1 n
        addEdgesChildren cs current_id
          ⟨ids1, st.nodeStmts ++ [(current_id, n)], st.edgeStmts⟩

/-- Helper: `add_nodes` applied to each child of a `"Root"`-named node. -/
def addNodesForest : List OrgNode → DotState → DotState
  | [] => fun st => st
  | c :: rest => fun st => addNodesForest rest (add_nodes c st)

/-- The `for child in node.children` loop of `add_nodes`
(main.py lines 166-171): assign the child an id, emit the edge, recurse. -/
def addEdgesChildren : List OrgNode → Str → DotState → DotState
  | [] => fun _ st => st
  | c :: rest => fun pid st =>
      let ids1 := assignId st.ids c.name
      let cid := idStrOf ids1 c.name
      addEdgesChildren rest pid
        (add_nodes c ⟨ids1, st.nodeStmts, st.edgeStmts ++ [(pid, cid)]⟩)

end

/-- Embedding of `generate_svg_chart` (main.py line 129), as the graph object it
hands to the external layout library. -/
def generate_svg_chart (t : OrgNode) : DotState :=
  add_nodes t ⟨[], [], []⟩

/-- The `--format` flag values (main.py line 207). -/
inductive Fmt : Type where
  | tree | visio | mermaid | svg
deriving DecidableEq

/-- Outcome of one invocation of the driver: the lines written to
standard output, and whether an uncaught exception escaped (`crashed`). -/
structure RunResult where
  stdout : List Str
  crashed : Bool
deriving DecidableEq

/-- The confirmation line printed after the image renderer runs
(main.py line 236). -/
def svgDoneMsg : Str :=
  "SVG file generated: org_chart.svg".toList

/-- The renderer dispatch of `main` (main.py lines 216-236).  Every
branch except the Mermaid one evaluates `root.children[0]`, which raises
an uncaught `IndexError` (`crashed := true`) when the root has no
children.  In the default (no-format) branch the section headers and the
SVG confirmation go to stderr and are not part of `stdout`. -/
def dispatch (root : OrgNode) (fmt : Option Fmt) : RunResult :=
  match fmt with
  | some .tree =>
      match root.children with
      | c :: _ => ⟨print_org_chart c 0, false⟩
      | [] => ⟨[], true⟩
  | some .visio =>
      match root.children with
      | c :: _ => ⟨print_reporting_relationships c (some root.name), false⟩
      | [] => ⟨[], true⟩
  | some .mermaid => ⟨print_mermaid_flowchart root, false⟩
  | some .svg =>
      match root.children with
      | _ :: _ => ⟨[svgDoneMsg], false⟩
      | [] => ⟨[], true⟩
  | none =>
      match root.children with
      | c :: _ =>
          ⟨print_org_chart c 0 ++ print_reporting_relationships c (some root.name) ++
            print_mermaid_flowchart root, false⟩
      | [] => ⟨[], true⟩

/-- First line of the file-not-found message (main.py lines 238-240). -/
def errMsg1 (filename : Str) : Str :=
  "Error: ".toList ++ filename ++
    " not found. Please create a text file with your organization structure.".toList

/-- Second line of the file-not-found message (main.py lines 241-243). -/
def errMsg2 : Str :=
  "Each line should represent a resource, with indentation showing reporting relationships.".toList

/-- Model of `open(filename)`: the file's lines, or a raised
`FileNotFoundError` (modelled as `Except.error ()`) when the path does
not exist (the file is `none`). -/
def openFile : Option (List Str) → Except Unit (List Str)
  | none => .error ()
  | some ls => .ok ls

/-- The body of the `try:` block of `main` (main.py lines 212-236).
A `FileNotFoundError` propagates as `Except.error`; any other uncaught
exception (the `IndexError` cases) is a crash inside a normally-entered
run. -/
def mainBody (file : Option (List Str)) (fmt : Option Fmt) : Except Unit RunResult :=
  match openFile file with
  | .error e => .error e
  | .ok lines =>
      match parse_org_file lines with
      | none => .ok ⟨[], true⟩
      | some root => .ok (dispatch root fmt)

/-- Embedding of `main` (main.py line 178): run the body; a `FileNotFoundError`
is caught at the top level, the two-line message is printed and `main`
returns normally (`crashed := false`, no distinct failure exit status). -/
def mainRun (file : Option (List Str)) (filename : Str) (fmt : Option Fmt) : RunResult :=
  match mainBody file fmt with
  | .ok r => r
  | .error _ => ⟨[errMsg1 filename, errMsg2], false⟩

mutual

/-- The tree invariant of §3: each child's recorded indentation is
strictly greater than its parent's, throughout the subtree. -/
def nodeOK : OrgNode → Bool
  | .node _ i cs => childrenOK cs i

/-- Predicate `childrenOK cs i`: every `c ∈ cs` has `i < c.indent` and satisfies
the invariant itself. -/
def childrenOK : List OrgNode → Int → Bool
  | [] => fun _ => true
  | c :: cs => fun i => (decide (i < c.indent) && nodeOK c) && childrenOK cs i

end

/-- A line is non-blank iff stripping it leaves something. -/
def nonBlank (l : Str) : Bool :=
  !(stripChars l).isEmpty

/-- The stripped text of the non-blank lines, in file order. -/
def strippedNonBlank (lines : List Str) : List Str :=
  (lines.filter nonBlank).map stripChars

/-- The bottom entry of the stack is the synthetic root with its
sentinel indent `-1`. -/
def bottomRoot : List OrgNode → Prop
  | [] => False
  | [e] => e.indent = -1 ∧ e.name = rootName
  | _ :: p :: rs => bottomRoot (p :: rs)

/-- The names of the whole tree held by the stack, were it collapsed
right now: bottom-to-top concatenation of the entries' subtree names. -/
def stackNames (st : List OrgNode) : List Str :=
  preorderNamesList st.reverse

/-- The invariant maintained by the parser on its stack. -/
structure StackInv (st : List OrgNode) : Prop where
  bottom : bottomRoot st
  chain : st.Chain' (fun a b => b.indent < a.indent)
  ok : ∀ e ∈ st, nodeOK e = true

/-- The input of Scenario A of the spec. -/
def scenarioALines : List Str :=
  ["CEO".toList, "  VP Sales".toList, "    Sales Rep 1".toList,
   "  VP Engineering".toList, "    Engineer 1".toList]

/-- The tree Scenario A parses to. -/
def scenarioATree : OrgNode :=
  .node rootName (-1)
    [.node "CEO".toList 0
      [.node "VP Sales".toList 2 [.node "Sales Rep 1".toList 4 []],
       .node "VP Engineering".toList 2 [.node "Engineer 1".toList 4 []]]]

mutual

/-- The edges `(parent name, child name)` of a subtree, including the
edges leaving the given node, listed in the order in which the child
endpoint is visited by a pre-order traversal. -/
def edgesUnder : OrgNode → List (Str × Str)
  | .node n _ cs => edgesChildren cs n

/-- The edges of a forest whose parent is named `pn`. -/
def edgesChildren : List OrgNode → Str → List (Str × Str)
  | [] => fun _ => []
  | c :: rest => fun pn => ((pn, c.name) :: edgesUnder c) ++ edgesChildren rest pn

end

/-- The tree edges excluding the synthetic root's own edges, i.e. the
edges whose parent endpoint is not the root node itself. -/
def properEdges (t : OrgNode) : List (Str × Str) :=
  t.children.flatMap edgesUnder

mutual

/-- The edges of a subtree whose parent endpoint is not NAMED `"Root"`
(the condition the code actually tests), in pre-order of the child. -/
def edgesUnderNR : OrgNode → List (Str × Str)
  | .node n _ cs => edgesChildrenNR cs n

/-- Same, for a forest below a parent named `pn`. -/
def edgesChildrenNR : List OrgNode → Str → List (Str × Str)
  | [] => fun _ => []
  | c :: rest => fun pn =>
      ((if pn = rootName then [] else [(pn, c.name)]) ++ edgesUnderNR c) ++
        edgesChildrenNR rest pn

end

/-- The reporting line of an edge. -/
def edgeLine (e : Str × Str) : Str :=
  reportLine e.2 e.1

/-- The input of the C2/C5 counterexamples: a non-root node is named
`"Root"`, the name of the synthetic root. -/
def rootyLines : List Str :=
  ["CEO".toList, "  Root".toList, "    Alice".toList]

/-- The tree `rootyLines` parses to. -/
def rootyTree : OrgNode :=
  .node rootName (-1)
    [.node "CEO".toList 0 [.node "Root".toList 2 [.node "Alice".toList 4 []]]]

/-- The input of the C3 counterexample: two top-level entries. -/
def twoTopLines : List Str := ["A".toList, "Z".toList]

/-- The tree `twoTopLines` parses to. -/
def twoTopTree : OrgNode :=
  .node rootName (-1) [.node "A".toList 0 [], .node "Z".toList 0 []]

/-- The `CEO` subtree of Scenario A. -/
def scenarioACEO : OrgNode :=
  .node "CEO".toList 0
    [.node "VP Sales".toList 2 [.node "Sales Rep 1".toList 4 []],
     .node "VP Engineering".toList 2 [.node "Engineer 1".toList 4 []]]

/-- The indentation the parser records for a listing line printed at
depth `level`: twice the depth. -/
def ind2 (level : Nat) : Int := ((2 * level : Nat) : Int)

/-- The name the parser recovers from a listing line of a node named
`n` printed at depth `level`. -/
def nm (level : Nat) (n : Str) : Str := stripChars (lineOf level n)

/-- Append a whole list of children at the end of a node's child list. -/
def OrgNode.appendChildren : OrgNode → List OrgNode → OrgNode
  | .node n i cs, ds => .node n i (cs ++ ds)

mutual

/-- The tree the parser rebuilds from the listing of `t` printed at
depth `level`: same structure, names re-read from the listing lines,
indents `2 * depth`. -/
def relabel : OrgNode → Nat → OrgNode
  | .node n _ cs => fun level => .node (nm level n) (ind2 level) (relabelForest cs (level + 1))

/-- Mapping `relabel` over a forest of siblings. -/
def relabelForest : List OrgNode → Nat → List OrgNode
  | [] => fun _ => []
  | c :: cs => fun level => relabel c level :: relabelForest cs level

end

mutual

/-- The parser stack (top first) right after the last listing line of
the subtree of `t` printed at depth `level` has been processed: the
rightmost path of the rebuilt subtree is still open. -/
def spine : OrgNode → Nat → List OrgNode
  | .node n _ cs => fun level =>
      spineAux cs (level + 1) (.node (nm level n) (ind2 level) [])

/-- Stack after processing a sibling forest at depth `level` over the
open parent entry `p`: all elder siblings are collapsed into `p`, the
youngest's spine is still open above it. -/
def spineAux : List OrgNode → Nat → OrgNode → List OrgNode
  | [] => fun _ p => [p]
  | c :: cs => fun level p =>
      match cs with
      | [] => spine c level ++ [p]
      | _ :: _ => spineAux cs level (p.appendChild (relabel c level))

end

/-- Erasure of a tree to its bare branching structure. -/
inductive TShape : Type where
  | node : List TShape → TShape

mutual

/-- The branching structure of a tree (names and indents erased). -/
def shape : OrgNode → TShape
  | .node _ _ cs => .node (shapeList cs)

/-- The branching structure of a forest. -/
def shapeList : List OrgNode → List TShape
  | [] => []
  | c :: cs => shape c :: shapeList cs

end

/-- Keep-first deduplication, with an explicit set of already-seen
names (modelled from the spec, §4.5: "one vertex per unique name
encountered, names are deduplicated across the whole tree"). -/
def dedupFAux : List Str → List Str → List Str
  | [], _ => []
  | x :: xs, seen => if x ∈ seen then dedupFAux xs seen else x :: dedupFAux xs (x :: seen)

/-- Keep-first deduplication of a name sequence. -/
def dedupF (l : List Str) : List Str := dedupFAux l []

/-- The canonical id table: the `k`-th distinct name gets `node_{k}`. -/
def canonIdsAux : List Str → Nat → List (Str × Str)
  | [], _ => []
  | x :: xs, k => (x, gvId k) :: canonIdsAux xs (k + 1)

/-- Modelled from the spec (§4.5): the id table that assigns the `k`-th
distinct name (in first-encounter order) the vertex id `node_{k}`. -/
def canonIds (L : List Str) : List (Str × Str) := canonIdsAux (dedupF L) 0

/-- The canonical id of a name, given the history of encountered names. -/
def idOf (L : List Str) : Str → Str := fun x => idStrOf (canonIds L) x

/-- Modelled from the spec (§4.5): the graph the image renderer should
build from a parsed tree — one vertex per unique name below the root
(first-encounter order ids), one node statement per visited node with
its name's vertex id, and the tree edges excluding the synthetic root's,
with endpoints mapped to vertex ids by name. -/
def specGraph (t : OrgNode) : DotState :=
  ⟨canonIds (subNames t),
   (subNames t).map (fun x => (idOf (subNames t) x, x)),
   (properEdges t).map (fun e => (idOf (subNames t) e.1, idOf (subNames t) e.2))⟩

/-- The input of Scenario C of the spec: `"Manager"` under two parents. -/
def mgrLines : List Str :=
  ["P1".toList, "  Manager".toList, "P2".toList, "  Manager".toList]

/-- The tree `mgrLines` parses to. -/
def mgrTree : OrgNode :=
  .node rootName (-1)
    [.node "P1".toList 0 [.node "Manager".toList 2 []],
     .node "P2".toList 0 [.node "Manager".toList 2 []]]

theorem OrgNode.name_appendChild (p c : OrgNode) : (p.appendChild c).name = p.name := by
  cases p
  rfl

theorem OrgNode.indent_appendChild (p c : OrgNode) : (p.appendChild c).indent = p.indent := by
  cases p
  rfl

theorem preorderNamesList_append (cs ds : List OrgNode) :
    preorderNamesList (cs ++ ds) = preorderNamesList cs ++ preorderNamesList ds := by
  induction cs with
  | nil => rfl
  | cons c cs ih => simp [preorderNamesList, ih]

theorem preorderNames_appendChild (p c : OrgNode) :
    preorderNames (p.appendChild c) = preorderNames p ++ preorderNames c := by
  cases p with
  | node n i cs =>
      simp [OrgNode.appendChild, preorderNames, preorderNamesList_append, preorderNamesList]

theorem preorderNames_eq_name_cons (t : OrgNode) :
    preorderNames t = t.name :: subNames t := by
  cases t
  rfl

theorem childrenOK_append (cs ds : List OrgNode) (i : Int) :
    childrenOK (cs ++ ds) i = (childrenOK cs i && childrenOK ds i) := by
  induction cs with
  | nil => simp [childrenOK]
  | cons c cs ih => simp [childrenOK, ih, Bool.and_assoc]

theorem nodeOK_appendChild {p c : OrgNode} (hp : nodeOK p = true) (hc : nodeOK c = true)
    (h : p.indent < c.indent) : nodeOK (p.appendChild c) = true := by
  cases p with
  | node n i cs =>
      simp only [OrgNode.indent] at h
      simp [OrgNode.appendChild, nodeOK, childrenOK_append, childrenOK] at *
      exact ⟨hp, h, hc⟩

theorem stackNames_cons (e : OrgNode) (st : List OrgNode) :
    stackNames (e :: st) = stackNames st ++ preorderNames e := by
  simp [stackNames, preorderNamesList_append, preorderNamesList]

theorem chain'_replace_head {a a' : OrgNode} {l : List OrgNode}
    (h : l.Chain' (fun x y => y.indent < x.indent) → True)
    (hc : (a :: l).Chain' (fun x y => y.indent < x.indent))
    (he : a'.indent = a.indent) :
    (a' :: l).Chain' (fun x y => y.indent < x.indent) := by
  cases l with
  | nil => simp
  | cons b l =>
      rw [List.chain'_cons] at hc ⊢
      exact ⟨he ▸ hc.1, hc.2⟩

/-- One pop step (attaching the top entry to the entry below it)
preserves the stack invariant. -/
theorem StackInv.pop_step {top p : OrgNode} {rs : List OrgNode}
    (h : StackInv (top :: p :: rs)) : StackInv (p.appendChild top :: rs) := by
  obtain ⟨hb, hc, hok⟩ := h
  rw [List.chain'_cons] at hc
  refine ⟨?_, ?_, ?_⟩
  · have hb' : bottomRoot (p :: rs) := hb
    cases rs with
    | nil =>
        obtain ⟨h1, h2⟩ := hb'
        exact ⟨by rw [OrgNode.indent_appendChild]; exact h1,
               by rw [OrgNode.name_appendChild]; exact h2⟩
    | cons q rs' => exact hb'
  · exact chain'_replace_head (fun _ => trivial) hc.2 (OrgNode.indent_appendChild p top)
  · intro e he
    rcases List.mem_cons.mp he with rfl | he'
    · exact nodeOK_appendChild (hok p (by simp)) (hok top (by simp)) hc.1
    · exact hok e (by simp [he'])

/-- One pop step does not change the collapsed tree's name sequence. -/
theorem stackNames_pop_step (top p : OrgNode) (rs : List OrgNode) :
    stackNames (p.appendChild top :: rs) = stackNames (top :: p :: rs) := by
  simp [stackNames_cons, preorderNames_appendChild]

/-- Full behaviour of the pop loop under the invariant: it never empties
the stack, preserves the invariant and the collapsed name sequence, and
leaves a top entry of indentation strictly below the new line's. -/
theorem popLoopAux_spec {ind : Int} (hind : 0 ≤ ind) :
    ∀ (rest : List OrgNode) (top : OrgNode), StackInv (top :: rest) →
      ∃ p rs, popLoopAux ind top rest = p :: rs ∧ StackInv (p :: rs) ∧
        p.indent < ind ∧ stackNames (p :: rs) = stackNames (top :: rest) := by
  intro rest
  induction rest with
  | nil =>
      intro top h
      have h1 : top.indent = -1 := h.bottom.1
      have hlt : ¬ top.indent ≥ ind := by
        rw [h1]
        omega
      refine ⟨top, [], ?_, h, ?_, rfl⟩
      · simp [popLoopAux, hlt]
      · rw [h1]
        omega
  | cons p rs ih =>
      intro top h
      by_cases htop : top.indent ≥ ind
      · rw [popLoopAux, if_pos htop]
        obtain ⟨p', rs', heq, hinv, hlt, hnm⟩ := ih (p.appendChild top) h.pop_step
        exact ⟨p', rs', heq, hinv, hlt, by rw [hnm, stackNames_pop_step]⟩
      · rw [popLoopAux, if_neg htop]
        exact ⟨top, p :: rs, rfl, h, lt_of_not_ge htop, rfl⟩

/-- Behaviour of one parsing step under the invariant: it never fails,
preserves the invariant, and appends the line's stripped text to the
collapsed name sequence exactly when the line is non-blank. -/
theorem stepLine_spec (st : List OrgNode) (line : Str) (h : StackInv st) :
    ∃ st', stepLine (some st) line = some st' ∧ StackInv st' ∧
      stackNames st' = stackNames st ++ (if nonBlank line then [stripChars line] else []) := by
  by_cases hb : stripChars line = []
  · refine ⟨st, ?_, h, ?_⟩
    · simp [stepLine, hb]
    · simp [nonBlank, hb]
  · cases st with
    | nil => exact absurd h.bottom (by simp [bottomRoot])
    | cons top rest =>
        obtain ⟨p, rs, heq, hinv, hlt, hnm⟩ :=
          popLoopAux_spec (Int.ofNat_nonneg (count_leading_spaces line)) rest top h
        refine ⟨OrgNode.node (stripChars line) (count_leading_spaces line : Int) [] :: p :: rs,
          ?_, ?_, ?_⟩
        · simp only [stepLine, if_neg hb, popLoop, heq]
        · refine ⟨hinv.bottom, ?_, ?_⟩
          · rw [List.chain'_cons]
            exact ⟨hlt, hinv.chain⟩
          · intro e he
            rcases List.mem_cons.mp he with rfl | he'
            · rfl
            · exact hinv.ok e he'
        · rw [stackNames_cons, hnm, stackNames_cons]
          simp [nonBlank, hb, preorderNames, preorderNamesList]

theorem strippedNonBlank_cons (l : Str) (ls : List Str) :
    strippedNonBlank (l :: ls) =
      (if nonBlank l then [stripChars l] else []) ++ strippedNonBlank ls := by
  by_cases hb : nonBlank l = true
  · simp [strippedNonBlank, List.filter, hb]
  · simp only [Bool.not_eq_true] at hb
    simp [strippedNonBlank, List.filter, hb]

/-- Behaviour of the whole line-processing loop under the invariant. -/
theorem foldl_stepLine_spec :
    ∀ (lines : List Str) (st : List OrgNode), StackInv st →
      ∃ st', List.foldl stepLine (some st) lines = some st' ∧ StackInv st' ∧
        stackNames st' = stackNames st ++ strippedNonBlank lines := by
  intro lines
  induction lines with
  | nil =>
      intro st h
      exact ⟨st, rfl, h, by simp [strippedNonBlank]⟩
  | cons l ls ih =>
      intro st h
      obtain ⟨st1, heq1, hinv1, hnm1⟩ := stepLine_spec st l h
      obtain ⟨st', heq', hinv', hnm'⟩ := ih st1 hinv1
      refine ⟨st', ?_, hinv', ?_⟩
      · rw [List.foldl_cons, heq1, heq']
      · rw [hnm', hnm1, strippedNonBlank_cons, List.append_assoc]

/-- Collapsing the final stack yields the synthetic root, satisfying the
tree invariant, whose pre-order names are the collapsed name sequence. -/
theorem collapseAux_spec :
    ∀ (rs : List OrgNode) (top : OrgNode), StackInv (top :: rs) →
      (collapseAux top rs).name = rootName ∧ (collapseAux top rs).indent = -1 ∧
      nodeOK (collapseAux top rs) = true ∧
      preorderNames (collapseAux top rs) = stackNames (top :: rs) := by
  intro rs
  induction rs with
  | nil =>
      intro top h
      refine ⟨h.bottom.2, h.bottom.1, h.ok top (by simp), ?_⟩
      simp [collapseAux, stackNames, preorderNamesList]
  | cons p rs' ih =>
      intro top h
      obtain ⟨h1, h2, h3, h4⟩ := ih (p.appendChild top) h.pop_step
      simp only [collapseAux]
      exact ⟨h1, h2, h3, by rw [h4, stackNames_pop_step]⟩

/-- The initial stack satisfies the invariant. -/
theorem stackInv_init : StackInv [rootEntry] := by
  refine ⟨⟨rfl, rfl⟩, List.chain'_singleton _, ?_⟩
  intro e he
  rcases List.mem_singleton.mp he with rfl
  rfl

/-- The parse result, fully characterised: parsing always succeeds, the
returned node is the synthetic root, it satisfies the tree invariant,
and the names below it are the stripped non-blank lines in order. -/
theorem parse_org_file_spec (lines : List Str) :
    ∃ t, parse_org_file lines = some t ∧ t.name = rootName ∧ t.indent = -1 ∧
      nodeOK t = true ∧ subNames t = strippedNonBlank lines := by
  obtain ⟨st', heq', hinv', hnm'⟩ := foldl_stepLine_spec lines [rootEntry] stackInv_init
  cases st' with
  | nil => exact absurd hinv'.bottom (by simp [bottomRoot])
  | cons top rs =>
      obtain ⟨h1, h2, h3, h4⟩ := collapseAux_spec rs top hinv'
      refine ⟨collapseAux top rs, ?_, h1, h2, h3, ?_⟩
      · rw [parse_org_file, heq']
        rfl
      · have h5 : preorderNames (collapseAux top rs) = rootName :: strippedNonBlank lines := by
          rw [h4, hnm']
          rfl
        rw [preorderNames_eq_name_cons, h1] at h5
        injection h5

/-- Claim C1: for every input file with N non-blank lines, the tree returned by
`parse_org_file` contains exactly N nodes beneath the synthetic root
(root excluded), one per non-blank line, with names equal to the stripped
line text (even in file order). -/
theorem claim_C1 (lines : List Str) (t : OrgNode) (h : parse_org_file lines = some t) :
    subNames t = strippedNonBlank lines ∧
    (subNames t).length = (lines.filter nonBlank).length := by
  obtain ⟨t', heq, _, _, _, hsub⟩ := parse_org_file_spec lines
  rw [heq] at h
  injection h with h'
  subst h'
  refine ⟨hsub, ?_⟩
  rw [hsub, strippedNonBlank, List.length_map]

theorem claim_C1_witness :
    parse_org_file scenarioALines = some scenarioATree ∧
    (subNames scenarioATree = strippedNonBlank scenarioALines ∧
     (subNames scenarioATree).length = (scenarioALines.filter nonBlank).length) :=
  ⟨rfl, claim_C1 scenarioALines scenarioATree rfl⟩

/-- Claim C8: in every tree produced by `parse_org_file`, each node other than
the synthetic root has a recorded indentation strictly greater than its
parent's (the synthetic root having indentation `-1`). -/
theorem claim_C8 (lines : List Str) (t : OrgNode) (h : parse_org_file lines = some t) :
    t.indent = -1 ∧ nodeOK t = true := by
  obtain ⟨t', heq, _, hind, hok, _⟩ := parse_org_file_spec lines
  rw [heq] at h
  injection h with h'
  subst h'
  exact ⟨hind, hok⟩

theorem claim_C8_witness :
    scenarioATree.indent = -1 ∧ nodeOK scenarioATree = true :=
  claim_C8 scenarioALines scenarioATree rfl

/-- Claim C10: `parse_org_file` is total over the file's content — the pop
loop never empties the stack (the sentinel indent `-1` is strictly less
than any line's leading-whitespace count), so the access to the stack's
top never fails and parsing succeeds on any input. -/
theorem claim_C10 (lines : List Str) : (parse_org_file lines).isSome = true := by
  obtain ⟨t, heq, _⟩ := parse_org_file_spec lines
  rw [heq]
  rfl

mutual

theorem report_some_eq : ∀ (t : OrgNode) (pn : Str),
    print_reporting_relationships t (some pn) =
      ((if pn = rootName then [] else [(pn, t.name)]) ++ edgesUnderNR t).map edgeLine
  | .node n i cs, pn => by
      simp only [print_reporting_relationships, edgesUnderNR, OrgNode.name, List.map_append]
      rw [report_children_eq cs n]
      by_cases h : pn = rootName
      · simp [h]
      · simp [h, edgeLine]

theorem report_children_eq : ∀ (cs : List OrgNode) (pn : Str),
    reportChildren cs pn = (edgesChildrenNR cs pn).map edgeLine
  | [], pn => rfl
  | c :: rest, pn => by
      simp only [reportChildren, edgesChildrenNR, List.map_append]
      rw [report_some_eq c pn, report_children_eq rest pn, List.map_append]

end

/-- Claim C2, as stated, is FALSE: in the parse of `rootyLines` the node
`Alice` has parent the (non-root) node named `Root`, so the tree edge
`Root → Alice` is not an edge of the synthetic root, yet
`print_reporting_relationships` does not emit the corresponding line
(the code compares the parent's NAME against `"Root"`, not the parent's
identity against the synthetic root). -/
theorem claim_C2_counterexample :
    parse_org_file rootyLines = some rootyTree ∧
    reportLine ("Alice".toList) ("Root".toList) ∈ (properEdges rootyTree).map edgeLine ∧
    reportLine ("Alice".toList) ("Root".toList) ∉ print_reporting_relationships rootyTree none := by
  refine ⟨rfl, by decide, by decide⟩

/-- Claim C2 amended: applied to a whole tree (parent pointer `None`),
`print_reporting_relationships` emits, in pre-order of the child
endpoint, exactly the line `"{name} reports to {parent.name}"` for each
tree edge whose parent's NAME is not `"Root"`; on trees without a
non-root node named `"Root"` these are exactly the edges excluding the
synthetic root's. -/
theorem claim_C2 (t : OrgNode) :
    print_reporting_relationships t none = (edgesUnderNR t).map edgeLine := by
  cases t with
  | node n i cs =>
      simp only [print_reporting_relationships, edgesUnderNR, List.nil_append]
      exact report_children_eq cs n

mutual

theorem mermaidNode_eq_spec : ∀ (t : OrgNode) (pid : Option Str) (k : Nat),
    mermaidNode t pid k = (specMerNode t pid k, k + sizeN t)
  | .node n i cs, pid, k => by
      simp only [mermaidNode, specMerNode, sizeN]
      rw [mermaidChildren_eq_spec cs (nId k) (k + 1)]
      refine congrArg _ ?_
      omega

theorem mermaidChildren_eq_spec : ∀ (cs : List OrgNode) (pid : Str) (k : Nat),
    mermaidChildren cs pid k = (specMerChildren cs pid k, k + sizeForest cs)
  | [], pid, k => by simp [mermaidChildren, specMerChildren, sizeForest]
  | c :: rest, pid, k => by
      simp only [mermaidChildren, specMerChildren, sizeForest]
      rw [mermaidNode_eq_spec c (some pid) k,
        mermaidChildren_eq_spec rest pid (k + sizeN c)]
      simp only [Prod.mk.injEq]
      refine ⟨by simp, by omega⟩

end

/-- Claim C3, as stated, is FALSE: the tree parsed from `twoTopLines` contains
a node named `Z`, but no line of the Mermaid output mentions the
character `Z` at all — in particular there is no declaration line for
that node.  The renderer only renders the subtree of the root's FIRST
child (`_print_mermaid_nodes(node.children[0])`). -/
theorem claim_C3_counterexample :
    parse_org_file twoTopLines = some twoTopTree ∧
    ("Z".toList ∈ subNames twoTopTree) ∧
    (∀ l ∈ print_mermaid_flowchart twoTopTree, 'Z' ∉ l) := by
  refine ⟨rfl, by decide, by decide⟩

/-- Claim C3 amended: for a parsed tree (root named `"Root"`) with at least
one child, the Mermaid output is the fenced block whose body covers
exactly the subtree of the root's FIRST child: each node of that subtree
gets the identifier `n{k}` where `k` is its position in the pre-order
depth-first enumeration of that subtree, a declaration line `id["name"]`,
and — for every node except the subtree's own root — an edge line
`parentId --> id`. -/
theorem claim_C3 (t c : OrgNode) (rest : List OrgNode)
    (hname : t.name = rootName) (hch : t.children = c :: rest) :
    print_mermaid_flowchart t =
      "```mermaid".toList :: "flowchart TB".toList ::
        specMerNode c none 0 ++ ["```".toList] := by
  cases t with
  | node n i cs =>
      simp only [OrgNode.name] at hname
      simp only [OrgNode.children] at hch
      subst hname
      subst hch
      simp [print_mermaid_flowchart, OrgNode.name, OrgNode.children, mermaidNode_eq_spec]

theorem claim_C3_witness :
    scenarioATree.name = rootName ∧ scenarioATree.children = [scenarioACEO] ∧
    print_mermaid_flowchart scenarioATree =
      "```mermaid".toList :: "flowchart TB".toList ::
        specMerNode scenarioACEO none 0 ++ ["```".toList] :=
  ⟨rfl, rfl, claim_C3 scenarioATree scenarioACEO [] rfl rfl⟩

/-- Claim C9: the Mermaid renderer is deterministic — its output is a pure
function of the parsed tree.  In the code the node-id counter is
allocated afresh on every invocation (`counter is None` ⇒ `[0]`) and no
other state survives a call, so two runs on the same tree produce
byte-identical output. -/
theorem claim_C9 (t₁ t₂ : OrgNode) (h : t₁ = t₂) :
    print_mermaid_flowchart t₁ = print_mermaid_flowchart t₂ := by
  rw [h]

theorem claim_C9_witness :
    print_mermaid_flowchart scenarioATree = print_mermaid_flowchart scenarioATree :=
  claim_C9 scenarioATree scenarioATree rfl

/-- Parsing an all-blank (or empty) file yields the bare synthetic root
with no children. -/
theorem parse_blank (lines : List Str) (h : ∀ l ∈ lines, stripChars l = []) :
    parse_org_file lines = some rootEntry := by
  have hfold : List.foldl stepLine (some [rootEntry]) lines = some [rootEntry] := by
    induction lines with
    | nil => rfl
    | cons l ls ih =>
        rw [List.foldl_cons]
        have hl : stepLine (some [rootEntry]) l = some [rootEntry] := by
          simp [stepLine, h l (by simp)]
        rw [hl]
        exact ih (fun x hx => h x (by simp [hx]))
  rw [parse_org_file, hfold]
  rfl

/-- Claim C4, as stated, is FALSE on both counts of its exception list: for an
input of one blank line, the Mermaid renderer invocation does NOT fail
(its guard `node.children` is falsy and it prints nothing), while the
image renderer invocation DOES fail (it is called as
`generate_svg_chart(root.children[0])`, indexing the missing first
child). -/
theorem claim_C4_counterexample :
    parse_org_file [[]] = some rootEntry ∧
    dispatch rootEntry (some Fmt.mermaid) = ⟨[], false⟩ ∧
    dispatch rootEntry (some Fmt.svg) = ⟨[], true⟩ :=
  ⟨rfl, rfl, rfl⟩

/-- Claim C4 amended: for an input containing only blank lines (or no lines),
parsing yields the synthetic root with zero children, and every renderer
invocation in the driver EXCEPT THE MERMAID RENDERER'S (tree, visio,
svg, and the default all-formats path) fails by indexing the root's
missing first child; the Mermaid invocation returns normally and prints
nothing. -/
theorem claim_C4 (lines : List Str) (h : ∀ l ∈ lines, stripChars l = []) :
    parse_org_file lines = some rootEntry ∧
    rootEntry.children = [] ∧
    dispatch rootEntry (some .tree) = ⟨[], true⟩ ∧
    dispatch rootEntry (some .visio) = ⟨[], true⟩ ∧
    dispatch rootEntry (some .svg) = ⟨[], true⟩ ∧
    dispatch rootEntry none = ⟨[], true⟩ ∧
    dispatch rootEntry (some .mermaid) = ⟨[], false⟩ :=
  ⟨parse_blank lines h, rfl, rfl, rfl, rfl, rfl, rfl⟩

theorem claim_C4_witness :
    parse_org_file [[]] = some rootEntry ∧
    rootEntry.children = [] ∧
    dispatch rootEntry (some .tree) = ⟨[], true⟩ ∧
    dispatch rootEntry (some .visio) = ⟨[], true⟩ ∧
    dispatch rootEntry (some .svg) = ⟨[], true⟩ ∧
    dispatch rootEntry none = ⟨[], true⟩ ∧
    dispatch rootEntry (some .mermaid) = ⟨[], false⟩ :=
  claim_C4 [[]] (by decide)

/-- Claim C7: when the input path does not exist, the `FileNotFoundError` is
caught at the top level, standard output receives exactly the two-line
remediation message (so no renderer output), and `main` returns
normally — no uncaught exception and no distinct failure exit status,
whatever format was requested. -/
theorem claim_C7 (filename : Str) (fmt : Option Fmt) :
    mainRun none filename fmt = ⟨[errMsg1 filename, errMsg2], false⟩ := rfl

theorem isWs_dash : isWs '-' = false := rfl

theorem dropWhile_replicate_dash (k : Nat) (rest : Str) :
    (List.replicate k ' ' ++ '-' :: rest).dropWhile isWs = '-' :: rest := by
  induction k with
  | zero => rfl
  | succ k ih =>
      rw [List.replicate_succ, List.cons_append, List.dropWhile_cons]
      simp [isWs, ih]

theorem count_leading_lineOf (level : Nat) (n : Str) :
    count_leading_spaces (lineOf level n) = 2 * level := by
  rw [count_leading_spaces, lineOf, dropWhile_replicate_dash]
  simp

theorem stripChars_lineOf_ne_nil (level : Nat) (n : Str) :
    stripChars (lineOf level n) ≠ [] := by
  intro h
  rw [stripChars, lineOf, dropWhile_replicate_dash] at h
  rw [List.reverse_eq_nil_iff, List.dropWhile_eq_nil_iff] at h
  have : isWs '-' = true := h '-' (by simp)
  simp [isWs] at this

theorem OrgNode.appendChildren_nil (p : OrgNode) : p.appendChildren [] = p := by
  cases p
  simp [OrgNode.appendChildren]

theorem OrgNode.appendChild_appendChildren (p d : OrgNode) (ds : List OrgNode) :
    (p.appendChild d).appendChildren ds = p.appendChildren (d :: ds) := by
  cases p
  simp [OrgNode.appendChild, OrgNode.appendChildren]

theorem relabel_indent (c : OrgNode) (level : Nat) : (relabel c level).indent = ind2 level := by
  cases c
  rfl

/-- A stack whose top entry is too shallow is left alone by the pop
loop. -/
theorem popLoopAux_lt {ind : Int} {e : OrgNode} (st : List OrgNode) (h : e.indent < ind) :
    popLoopAux ind e st = e :: st := by
  cases st with
  | nil => simp [popLoopAux, not_le.mpr h]
  | cons p rs => simp [popLoopAux, not_le.mpr h]

theorem OrgNode.appendChildren_singleton (p d : OrgNode) :
    p.appendChildren [d] = p.appendChild d := by
  cases p
  rfl

theorem ind2_le_succ (l : Nat) : ind2 l ≤ ind2 (l + 1) := by
  simp only [ind2]
  omega

theorem ind2_lt_succ (l : Nat) : ind2 l < ind2 (l + 1) := by
  simp only [ind2]
  omega

mutual

theorem popLoop_spine : ∀ (c : OrgNode) (l : Nat) (m : Int) (rest : List OrgNode),
    m ≤ ind2 l →
    popLoop m (spine c l ++ rest) = popLoop m (relabel c l :: rest)
  | .node n i cs, l, m, rest, h => by
      rw [spine, popLoop_spineAux cs (l + 1) (.node (nm l n) (ind2 l) []) m rest
        (le_trans h (ind2_le_succ l))]
      rfl

theorem popLoop_spineAux : ∀ (cs : List OrgNode) (l : Nat) (p : OrgNode) (m : Int)
      (rest : List OrgNode), m ≤ ind2 l →
    popLoop m (spineAux cs l p ++ rest) =
      popLoop m (p.appendChildren (relabelForest cs l) :: rest)
  | [], l, p, m, rest, h => by
      simp [spineAux, relabelForest, OrgNode.appendChildren_nil]
  | [c], l, p, m, rest, h => by
      show popLoop m ((spine c l ++ [p]) ++ rest) = _
      rw [List.append_assoc, List.singleton_append,
        popLoop_spine c l m (p :: rest) h, popLoop]
      rw [popLoopAux, if_pos (by rw [relabel_indent]; exact h)]
      show popLoop m (p.appendChild (relabel c l) :: rest) = _
      rw [show relabelForest [c] l = [relabel c l] from rfl,
        OrgNode.appendChildren_singleton]
  | c :: c₂ :: cs'', l, p, m, rest, h => by
      show popLoop m (spineAux (c₂ :: cs'') l (p.appendChild (relabel c l)) ++ rest) = _
      rw [popLoop_spineAux (c₂ :: cs'') l (p.appendChild (relabel c l)) m rest h,
        OrgNode.appendChild_appendChildren]
      rfl

end

mutual

theorem collapseAll_spine : ∀ (c : OrgNode) (l : Nat) (rest : List OrgNode),
    collapseAll (spine c l ++ rest) = collapseAll (relabel c l :: rest)
  | .node n i cs, l, rest => by
      rw [spine, collapseAll_spineAux cs (l + 1) (.node (nm l n) (ind2 l) []) rest]
      rfl

theorem collapseAll_spineAux : ∀ (cs : List OrgNode) (l : Nat) (p : OrgNode)
      (rest : List OrgNode),
    collapseAll (spineAux cs l p ++ rest) =
      collapseAll (p.appendChildren (relabelForest cs l) :: rest)
  | [], l, p, rest => by
      simp [spineAux, relabelForest, OrgNode.appendChildren_nil]
  | [c], l, p, rest => by
      show collapseAll ((spine c l ++ [p]) ++ rest) = _
      rw [List.append_assoc, List.singleton_append, collapseAll_spine c l (p :: rest)]
      rw [show relabelForest [c] l = [relabel c l] from rfl,
        OrgNode.appendChildren_singleton]
      rfl
  | c :: c₂ :: cs'', l, p, rest => by
      show collapseAll (spineAux (c₂ :: cs'') l (p.appendChild (relabel c l)) ++ rest) = _
      rw [collapseAll_spineAux (c₂ :: cs'') l (p.appendChild (relabel c l)) rest,
        OrgNode.appendChild_appendChildren]
      rfl

end

mutual

theorem shape_relabel : ∀ (c : OrgNode) (l : Nat), shape (relabel c l) = shape c
  | .node n i cs, l => by
      simp only [relabel, shape]
      rw [shapeList_relabelForest cs (l + 1)]

theorem shapeList_relabelForest : ∀ (cs : List OrgNode) (l : Nat),
    shapeList (relabelForest cs l) = shapeList cs
  | [], _ => rfl
  | c :: cs, l => by
      simp only [relabelForest, shapeList]
      rw [shape_relabel c l, shapeList_relabelForest cs l]

end

/-- The effect of one listing line on the parser state. -/
theorem stepLine_lineOf (T : List OrgNode) (p : OrgNode) (st : List OrgNode)
    (l : Nat) (n : Str) (hpop : popLoop (ind2 l) T = p :: st) :
    stepLine (some T) (lineOf l n) =
      some (OrgNode.node (nm l n) (ind2 l) [] :: p :: st) := by
  have hc : ((count_leading_spaces (lineOf l n) : Nat) : Int) = ind2 l := by
    rw [count_leading_lineOf]
    rfl
  simp only [stepLine, if_neg (stripChars_lineOf_ne_nil l n), hc, hpop]
  rfl

mutual

theorem foldA : ∀ (c : OrgNode) (l : Nat) (T : List OrgNode) (p : OrgNode)
      (st : List OrgNode), popLoop (ind2 l) T = p :: st →
    List.foldl stepLine (some T) (print_org_chart c l) = some (spine c l ++ p :: st)
  | .node n i cs, l, T, p, st, hpop => by
      rw [print_org_chart, List.foldl_cons, stepLine_lineOf T p st l n hpop]
      cases cs with
      | nil =>
          rw [printChartChildren, List.foldl_nil]
          rfl
      | cons c₁ cs' =>
          rw [printChartChildren, List.foldl_append]
          rw [foldA c₁ (l + 1) (OrgNode.node (nm l n) (ind2 l) [] :: p :: st)
            (OrgNode.node (nm l n) (ind2 l) []) (p :: st)
            (by
              rw [popLoop]
              exact popLoopAux_lt (p :: st) (ind2_lt_succ l))]
          rw [foldB cs' c₁ (l + 1) (OrgNode.node (nm l n) (ind2 l) []) (p :: st)
            (ind2_lt_succ l)]
          rfl

theorem foldB : ∀ (cs : List OrgNode) (c : OrgNode) (l : Nat) (p : OrgNode)
      (st : List OrgNode), p.indent < ind2 l →
    List.foldl stepLine (some (spine c l ++ p :: st)) (printChartChildren cs l) =
      some (spineAux (c :: cs) l p ++ st)
  | [], c, l, p, st, hp => by
      rw [printChartChildren, List.foldl_nil]
      show _ = some ((spine c l ++ [p]) ++ st)
      rw [List.append_assoc, List.singleton_append]
  | c₂ :: cs'', c, l, p, st, hp => by
      have hpop : popLoop (ind2 l) (spine c l ++ p :: st) =
          p.appendChild (relabel c l) :: st := by
        rw [popLoop_spine c l (ind2 l) (p :: st) le_rfl, popLoop]
        rw [popLoopAux, if_pos (by rw [relabel_indent])]
        exact popLoopAux_lt st (by rw [OrgNode.indent_appendChild]; exact hp)
      rw [printChartChildren, List.foldl_append]
      rw [foldA c₂ l (spine c l ++ p :: st) (p.appendChild (relabel c l)) st hpop]
      rw [foldB cs'' c₂ l (p.appendChild (relabel c l)) st
        (by rw [OrgNode.indent_appendChild]; exact hp)]
      rfl

end

/-- Claim C6: feeding the indented listing of any subtree back through the
parser reconstructs it exactly (up to the forced renaming
`name ↦ strip("  "*depth + "- " + name)` and the recorded indents): the
resulting synthetic root has the relabelled copy as its only child, and
that copy is structure-isomorphic to the listed tree. -/
theorem claim_C6 (c : OrgNode) :
    parse_org_file (print_org_chart c 0) =
      some (OrgNode.node rootName (-1) [relabel c 0]) ∧
    shape (relabel c 0) = shape c := by
  constructor
  · have h0 : popLoop (ind2 0) [rootEntry] = [rootEntry] := by
      rw [popLoop]
      exact popLoopAux_lt [] (by decide)
    rw [parse_org_file, foldA c 0 [rootEntry] rootEntry [] h0]
    show collapseAll (spine c 0 ++ [rootEntry]) = _
    rw [show ([rootEntry] : List OrgNode) = rootEntry :: [] from rfl,
      collapseAll_spine c 0 [rootEntry]]
    rfl
  · exact shape_relabel c 0

theorem mem_dedupFAux (x : Str) : ∀ (l s : List Str), x ∈ dedupFAux l s ↔ x ∈ l ∧ x ∉ s := by
  intro l
  induction l with
  | nil => intro s; simp [dedupFAux]
  | cons y ys ih =>
      intro s
      by_cases hy : y ∈ s
      · rw [dedupFAux, if_pos hy, ih]
        simp only [List.mem_cons]
        constructor
        · tauto
        · rintro ⟨rfl | h1, h2⟩
          · exact absurd hy h2
          · exact ⟨h1, h2⟩
      · rw [dedupFAux, if_neg hy]
        simp only [List.mem_cons, ih]
        constructor
        · rintro (rfl | ⟨h1, h2⟩)
          · exact ⟨Or.inl rfl, hy⟩
          · exact ⟨Or.inr h1, fun hs => h2 (Or.inr hs)⟩
        · rintro ⟨hxy | h1, h2⟩
          · exact Or.inl hxy
          · by_cases hxy : x = y
            · exact Or.inl hxy
            · exact Or.inr ⟨h1, fun hc => hc.elim hxy h2⟩

theorem dedupFAux_congr_seen : ∀ (l s₁ s₂ : List Str), (∀ y, y ∈ s₁ ↔ y ∈ s₂) →
    dedupFAux l s₁ = dedupFAux l s₂ := by
  intro l
  induction l with
  | nil => intro s₁ s₂ _; rfl
  | cons y ys ih =>
      intro s₁ s₂ h
      by_cases hy : y ∈ s₁
      · rw [dedupFAux, if_pos hy, dedupFAux, if_pos ((h y).mp hy)]
        exact ih s₁ s₂ h
      · rw [dedupFAux, if_neg hy, dedupFAux, if_neg (fun hc => hy ((h y).mpr hc))]
        refine congrArg _ (ih _ _ ?_)
        intro z
        simp only [List.mem_cons, h z]

theorem dedupFAux_append : ∀ (A B s : List Str),
    dedupFAux (A ++ B) s = dedupFAux A s ++ dedupFAux B (A ++ s) := by
  intro A
  induction A with
  | nil => intro B s; rfl
  | cons x A' ih =>
      intro B s
      by_cases hx : x ∈ s
      · rw [List.cons_append, dedupFAux, if_pos hx, dedupFAux, if_pos hx, ih]
        refine congrArg _ (dedupFAux_congr_seen _ _ _ ?_)
        intro z
        simp only [List.mem_append, List.mem_cons]
        constructor
        · tauto
        · rintro ((rfl | h) | h)
          · exact Or.inr hx
          · exact Or.inl h
          · exact Or.inr h
      · rw [List.cons_append, dedupFAux, if_neg hx, dedupFAux, if_neg hx, ih,
          List.cons_append]
        refine congrArg _ (congrArg _ (dedupFAux_congr_seen _ _ _ ?_))
        intro z
        simp only [List.mem_append, List.mem_cons]
        tauto

theorem mem_dedupF (x : Str) (l : List Str) : x ∈ dedupF l ↔ x ∈ l := by
  rw [dedupF, mem_dedupFAux]
  simp

theorem dedupF_append (A B : List Str) : dedupF (A ++ B) = dedupF A ++ dedupFAux B A := by
  rw [dedupF, dedupFAux_append]
  rw [dedupF]
  refine congrArg _ (dedupFAux_congr_seen _ _ _ ?_)
  intro z
  simp

theorem dedupF_snoc (L : List Str) (x : Str) :
    dedupF (L ++ [x]) = if x ∈ L then dedupF L else dedupF L ++ [x] := by
  rw [dedupF_append]
  by_cases hx : x ∈ L
  · rw [if_pos hx, dedupFAux, if_pos hx]
    simp [dedupFAux]
  · rw [if_neg hx, dedupFAux, if_neg hx]
    rfl

theorem dedupF_absorb (A B : List Str) (x : Str) (h : x ∈ A) :
    dedupF (A ++ x :: B) = dedupF (A ++ B) := by
  rw [dedupF_append, dedupF_append, dedupFAux, if_pos h]

theorem canonIdsAux_length : ∀ (D : List Str) (k : Nat),
    (canonIdsAux D k).length = D.length := by
  intro D
  induction D with
  | nil => intro k; rfl
  | cons x xs ih => intro k; simp [canonIdsAux, ih]

theorem canonIdsAux_append : ∀ (D E : List Str) (k : Nat),
    canonIdsAux (D ++ E) k = canonIdsAux D k ++ canonIdsAux E (k + D.length) := by
  intro D
  induction D with
  | nil => intro E k; simp [canonIdsAux]
  | cons x xs ih =>
      intro E k
      rw [List.cons_append, canonIdsAux, canonIdsAux, ih]
      simp only [List.cons_append, List.length_cons]
      refine congrArg _ (congrArg _ (congrArg _ ?_))
      omega

theorem lookup_canonIdsAux_isSome : ∀ (D : List Str) (k : Nat) (x : Str),
    (List.lookup x (canonIdsAux D k)).isSome = true ↔ x ∈ D := by
  intro D
  induction D with
  | nil => intro k x; simp [canonIdsAux, List.lookup]
  | cons y ys ih =>
      intro k x
      rw [canonIdsAux, List.lookup_cons]
      by_cases hxy : x = y
      · subst hxy
        simp
      · have hb : (x == y) = false := beq_eq_false_iff_ne.mpr hxy
        simp only [hb]
        rw [ih (k + 1) x]
        simp [hxy]

theorem lookup_append_left : ∀ (l₁ l₂ : List (Str × Str)) (x : Str),
    (List.lookup x l₁).isSome = true → List.lookup x (l₁ ++ l₂) = List.lookup x l₁ := by
  intro l₁
  induction l₁ with
  | nil => intro l₂ x h; simp [List.lookup] at h
  | cons p ps ih =>
      intro l₂ x h
      rw [List.cons_append, List.lookup_cons]
      rw [List.lookup_cons] at h ⊢
      cases hb : (x == p.1) with
      | true => rfl
      | false =>
          rw [hb] at h
          exact ih l₂ x h

theorem lookup_canonIds_isSome (L : List Str) (x : Str) :
    (List.lookup x (canonIds L)).isSome = true ↔ x ∈ L := by
  rw [canonIds, lookup_canonIdsAux_isSome, mem_dedupF]

theorem canonIds_congr (A B : List Str) (h : dedupF A = dedupF B) :
    canonIds A = canonIds B := by
  rw [canonIds, canonIds, h]

theorem idOf_congr (A B : List Str) (h : dedupF A = dedupF B) : idOf A = idOf B := by
  unfold idOf
  rw [canonIds_congr A B h]

theorem idOf_append_of_mem (A B : List Str) (x : Str) (h : x ∈ A) :
    idOf (A ++ B) x = idOf A x := by
  show idStrOf (canonIds (A ++ B)) x = idStrOf (canonIds A) x
  rw [idStrOf, idStrOf, canonIds, dedupF_append, canonIdsAux_append]
  rw [lookup_append_left]
  · rfl
  · rw [lookup_canonIdsAux_isSome, mem_dedupF]
    exact h

theorem assignId_canonIds (L : List Str) (x : Str) :
    assignId (canonIds L) x = canonIds (L ++ [x]) := by
  by_cases hx : x ∈ L
  · rw [assignId, if_pos ((lookup_canonIds_isSome L x).mpr hx)]
    exact (canonIds_congr (L ++ [x]) L (by rw [dedupF_snoc, if_pos hx])).symm
  · have hnot : ¬ (List.lookup x (canonIds L)).isSome = true := by
      rw [lookup_canonIds_isSome]
      exact hx
    rw [assignId, if_neg hnot]
    rw [show canonIds (L ++ [x]) = canonIdsAux (dedupF (L ++ [x])) 0 from rfl]
    rw [dedupF_snoc, if_neg hx, canonIdsAux_append]
    rw [show (canonIds L).length = (canonIdsAux (dedupF L) 0).length from rfl,
      canonIdsAux_length, Nat.zero_add]
    rfl

theorem name_mem_preorderNames (c : OrgNode) : c.name ∈ preorderNames c := by
  cases c
  simp [preorderNames, OrgNode.name]

mutual

theorem edgesUnder_mem : ∀ (c : OrgNode), ∀ e ∈ edgesUnder c,
    e.1 ∈ preorderNames c ∧ e.2 ∈ preorderNames c
  | .node n i cs => by
      intro e he
      rw [edgesUnder] at he
      have h := edgesChildren_mem cs n e he
      rw [preorderNames]
      constructor
      · rcases h.1 with h1 | h1
        · exact h1 ▸ List.mem_cons_self _ _
        · exact List.mem_cons_of_mem _ h1
      · exact List.mem_cons_of_mem _ h.2

theorem edgesChildren_mem : ∀ (cs : List OrgNode) (pn : Str), ∀ e ∈ edgesChildren cs pn,
    (e.1 = pn ∨ e.1 ∈ preorderNamesList cs) ∧ e.2 ∈ preorderNamesList cs
  | [], pn => by intro e he; simp [edgesChildren] at he
  | c :: rest, pn => by
      intro e he
      rw [edgesChildren] at he
      rw [preorderNamesList]
      rcases List.mem_append.mp he with h | h
      · rcases List.mem_cons.mp h with rfl | h'
        · exact ⟨Or.inl rfl, List.mem_append_left _ (name_mem_preorderNames c)⟩
        · have h2 := edgesUnder_mem c e h'
          exact ⟨Or.inr (List.mem_append_left _ h2.1), List.mem_append_left _ h2.2⟩
      · have h2 := edgesChildren_mem rest pn e h
        refine ⟨h2.1.imp_right (List.mem_append_right _), List.mem_append_right _ h2.2⟩

end

mutual

theorem add_nodes_spec : ∀ (c : OrgNode) (L : List Str) (ns es : List (Str × Str)),
    (∀ x ∈ preorderNames c, x ≠ rootName) →
    add_nodes c ⟨canonIds L, ns, es⟩ =
      ⟨canonIds (L ++ preorderNames c),
       ns ++ (preorderNames c).map (fun x => (idOf (L ++ preorderNames c) x, x)),
       es ++ (edgesUnder c).map
         (fun e => (idOf (L ++ preorderNames c) e.1, idOf (L ++ preorderNames c) e.2))⟩
  | .node n i cs, L, ns, es, hnr => by
      have hn : n ≠ rootName := hnr n (by rw [preorderNames]; exact List.mem_cons_self _ _)
      simp only [add_nodes, if_neg hn, assignId_canonIds]
      rw [addEdges_spec cs n (L ++ [n]) (ns ++ [(idStrOf (canonIds (L ++ [n])) n, n)]) es
        (by simp)
        (fun x hx => hnr x (by rw [preorderNames]; exact List.mem_cons_of_mem _ hx))]
      rw [preorderNames, edgesUnder]
      rw [show L ++ n :: preorderNamesList cs = (L ++ [n]) ++ preorderNamesList cs from by
        rw [List.append_assoc, List.singleton_append]]
      rw [List.map_cons]
      rw [idOf_append_of_mem (L ++ [n]) (preorderNamesList cs) n (by simp)]
      simp only [idOf]
      simp [List.append_assoc]

theorem addEdges_spec : ∀ (cs : List OrgNode) (pn : Str) (L : List Str)
      (ns es : List (Str × Str)), pn ∈ L →
    (∀ x ∈ preorderNamesList cs, x ≠ rootName) →
    addEdgesChildren cs (idStrOf (canonIds L) pn) ⟨canonIds L, ns, es⟩ =
      ⟨canonIds (L ++ preorderNamesList cs),
       ns ++ (preorderNamesList cs).map (fun x => (idOf (L ++ preorderNamesList cs) x, x)),
       es ++ (edgesChildren cs pn).map
         (fun e => (idOf (L ++ preorderNamesList cs) e.1,
                    idOf (L ++ preorderNamesList cs) e.2))⟩
  | [], pn, L, ns, es, hpn, hnr => by
      simp [addEdgesChildren, preorderNamesList, edgesChildren]
  | c :: rest, pn, L, ns, es, hpn, hnr => by
      have hc : ∀ x ∈ preorderNames c, x ≠ rootName :=
        fun x hx => hnr x (by rw [preorderNamesList]; exact List.mem_append_left _ hx)
      have hrest : ∀ x ∈ preorderNamesList rest, x ≠ rootName :=
        fun x hx => hnr x (by rw [preorderNamesList]; exact List.mem_append_right _ hx)
      simp only [addEdgesChildren, assignId_canonIds]
      rw [add_nodes_spec c (L ++ [c.name]) ns
        (es ++ [(idStrOf (canonIds L) pn, idStrOf (canonIds (L ++ [c.name])) c.name)]) hc]
      have hdup : dedupF ((L ++ [c.name]) ++ preorderNames c) =
          dedupF (L ++ preorderNames c) := by
        conv_lhs => rw [preorderNames_eq_name_cons c]
        rw [dedupF_absorb (L ++ [c.name]) (subNames c) c.name (by simp)]
        conv_rhs => rw [preorderNames_eq_name_cons c]
        rw [List.append_assoc, List.singleton_append]
      rw [canonIds_congr _ _ hdup, idOf_congr _ _ hdup]
      rw [show idStrOf (canonIds L) pn = idStrOf (canonIds (L ++ preorderNames c)) pn from
        (idOf_append_of_mem L (preorderNames c) pn hpn).symm]
      rw [addEdges_spec rest pn (L ++ preorderNames c)
        (ns ++ (preorderNames c).map (fun x => (idOf (L ++ preorderNames c) x, x)))
        ((es ++ [(idStrOf (canonIds (L ++ preorderNames c)) pn,
            idStrOf (canonIds (L ++ [c.name])) c.name)]) ++
          (edgesUnder c).map (fun e => (idOf (L ++ preorderNames c) e.1,
            idOf (L ++ preorderNames c) e.2)))
        (List.mem_append_left _ hpn) hrest]
      have hcname : idOf (L ++ preorderNames c) c.name = idOf (L ++ [c.name]) c.name := by
        conv_lhs => rw [preorderNames_eq_name_cons c, List.append_cons]
        exact idOf_append_of_mem (L ++ [c.name]) (subNames c) c.name (by simp)
      have hstab : ∀ x, x ∈ L ++ preorderNames c →
          idOf ((L ++ preorderNames c) ++ preorderNamesList rest) x =
            idOf (L ++ preorderNames c) x :=
        fun x hx => idOf_append_of_mem _ _ x hx
      rw [preorderNamesList, edgesChildren]
      rw [← List.append_assoc L (preorderNames c) (preorderNamesList rest)]
      have hmap1 : (preorderNames c).map
            (fun x => (idOf ((L ++ preorderNames c) ++ preorderNamesList rest) x, x)) =
          (preorderNames c).map (fun x => (idOf (L ++ preorderNames c) x, x)) :=
        List.map_congr_left (fun x hx => by rw [hstab x (List.mem_append_right _ hx)])
      have hmap2 : (edgesUnder c).map
            (fun e => (idOf ((L ++ preorderNames c) ++ preorderNamesList rest) e.1,
              idOf ((L ++ preorderNames c) ++ preorderNamesList rest) e.2)) =
          (edgesUnder c).map (fun e => (idOf (L ++ preorderNames c) e.1,
            idOf (L ++ preorderNames c) e.2)) :=
        List.map_congr_left (fun e he => by
          have hmem := edgesUnder_mem c e he
          rw [hstab e.1 (List.mem_append_right _ hmem.1),
            hstab e.2 (List.mem_append_right _ hmem.2)])
      rw [List.map_append, List.map_append, List.map_cons, hmap1, hmap2]
      rw [hstab pn (List.mem_append_left _ hpn),
        hstab c.name (List.mem_append_right _ (name_mem_preorderNames c)), hcname]
      simp only [idOf]
      simp [List.append_assoc]

theorem addForest_spec : ∀ (cs : List OrgNode) (L : List Str) (ns es : List (Str × Str)),
    (∀ x ∈ preorderNamesList cs, x ≠ rootName) →
    addNodesForest cs ⟨canonIds L, ns, es⟩ =
      ⟨canonIds (L ++ preorderNamesList cs),
       ns ++ (preorderNamesList cs).map (fun x => (idOf (L ++ preorderNamesList cs) x, x)),
       es ++ (cs.flatMap edgesUnder).map
         (fun e => (idOf (L ++ preorderNamesList cs) e.1,
                    idOf (L ++ preorderNamesList cs) e.2))⟩
  | [], L, ns, es, hnr => by
      simp [addNodesForest, preorderNamesList]
  | c :: rest, L, ns, es, hnr => by
      have hc : ∀ x ∈ preorderNames c, x ≠ rootName :=
        fun x hx => hnr x (by rw [preorderNamesList]; exact List.mem_append_left _ hx)
      have hrest : ∀ x ∈ preorderNamesList rest, x ≠ rootName :=
        fun x hx => hnr x (by rw [preorderNamesList]; exact List.mem_append_right _ hx)
      simp only [addNodesForest]
      rw [add_nodes_spec c L ns es hc]
      rw [addForest_spec rest (L ++ preorderNames c)
        (ns ++ (preorderNames c).map (fun x => (idOf (L ++ preorderNames c) x, x)))
        (es ++ (edgesUnder c).map (fun e => (idOf (L ++ preorderNames c) e.1,
          idOf (L ++ preorderNames c) e.2)))
        hrest]
      have hstab : ∀ x, x ∈ L ++ preorderNames c →
          idOf ((L ++ preorderNames c) ++ preorderNamesList rest) x =
            idOf (L ++ preorderNames c) x :=
        fun x hx => idOf_append_of_mem _ _ x hx
      rw [preorderNamesList, List.flatMap_cons]
      rw [← List.append_assoc L (preorderNames c) (preorderNamesList rest)]
      have hmap1 : (preorderNames c).map
            (fun x => (idOf ((L ++ preorderNames c) ++ preorderNamesList rest) x, x)) =
          (preorderNames c).map (fun x => (idOf (L ++ preorderNames c) x, x)) :=
        List.map_congr_left (fun x hx => by rw [hstab x (List.mem_append_right _ hx)])
      have hmap2 : (edgesUnder c).map
            (fun e => (idOf ((L ++ preorderNames c) ++ preorderNamesList rest) e.1,
              idOf ((L ++ preorderNames c) ++ preorderNamesList rest) e.2)) =
          (edgesUnder c).map (fun e => (idOf (L ++ preorderNames c) e.1,
            idOf (L ++ preorderNames c) e.2)) :=
        List.map_congr_left (fun e he => by
          have hmem := edgesUnder_mem c e he
          rw [hstab e.1 (List.mem_append_right _ hmem.1),
            hstab e.2 (List.mem_append_right _ hmem.2)])
      rw [List.map_append, List.map_append, hmap1, hmap2]
      simp [List.append_assoc]

end

theorem canonIdsAux_keys : ∀ (D : List Str) (k : Nat),
    (canonIdsAux D k).map Prod.fst = D := by
  intro D
  induction D with
  | nil => intro k; rfl
  | cons x xs ih => intro k; simp [canonIdsAux, ih]

theorem dedupFAux_nodup : ∀ (l s : List Str), (dedupFAux l s).Nodup := by
  intro l
  induction l with
  | nil => intro s; simp [dedupFAux]
  | cons y ys ih =>
      intro s
      by_cases hy : y ∈ s
      · rw [dedupFAux, if_pos hy]
        exact ih s
      · rw [dedupFAux, if_neg hy]
        rw [List.nodup_cons]
        refine ⟨fun hc => ?_, ih (y :: s)⟩
        exact ((mem_dedupFAux y ys (y :: s)).mp hc).2 (List.mem_cons_self _ _)

theorem dedupF_nodup (l : List Str) : (dedupF l).Nodup :=
  dedupFAux_nodup l []

/-- Claim C5, as stated, is FALSE: in the parse of `rootyLines` the tree edge
`Root → Alice` (whose parent endpoint is not the synthetic root) has no
counterpart in the built graph, even though the graph's own id table
maps `Root ↦ node_1` and `Alice ↦ node_2` — `add_nodes` treats every
node NAMED `"Root"` as the synthetic root and emits no edges from it,
so the graph's edges do not mirror the tree's parent-child relation. -/
theorem claim_C5_counterexample :
    parse_org_file rootyLines = some rootyTree ∧
    (("Root".toList, "Alice".toList) ∈ properEdges rootyTree) ∧
    List.lookup ("Root".toList) (generate_svg_chart rootyTree).ids =
      some ("node_1".toList) ∧
    List.lookup ("Alice".toList) (generate_svg_chart rootyTree).ids =
      some ("node_2".toList) ∧
    (("node_1".toList, "node_2".toList) ∉ (generate_svg_chart rootyTree).edgeStmts) := by
  refine ⟨rfl, by decide, by decide, by decide, by decide⟩

/-- Claim C5 amended: for a parsed tree none of whose non-root nodes is named
`"Root"`, the graph object the image renderer builds equals the
spec-side graph: its id table assigns exactly one vertex id per unique
name below the root (keys are the distinct names in first-encounter
order, without duplicates), its node statements declare each visited
node under its name's vertex id, and its edges are exactly the tree
edges excluding the synthetic root's, with endpoints mapped to vertex
ids by name — so a name appearing under two different parents yields a
single vertex with incoming edges from both parents. -/
theorem claim_C5 (t : OrgNode) (hroot : t.name = rootName)
    (hnr : ∀ x ∈ subNames t, x ≠ rootName) :
    generate_svg_chart t = specGraph t ∧
    (specGraph t).ids.map Prod.fst = dedupF (subNames t) ∧
    ((specGraph t).ids.map Prod.fst).Nodup := by
  refine ⟨?_, ?_, ?_⟩
  · cases t with
    | node n i cs =>
        simp only [OrgNode.name] at hroot
        subst hroot
        have hnr' : ∀ x ∈ preorderNamesList cs, x ≠ rootName := fun x hx => hnr x hx
        rw [generate_svg_chart]
        rw [show (⟨[], [], []⟩ : DotState) = ⟨canonIds [], [], []⟩ from rfl]
        simp only [add_nodes, if_pos rfl]
        rw [addForest_spec cs [] [] [] hnr']
        simp [specGraph, subNames, properEdges, OrgNode.children]
  · rw [show (specGraph t).ids = canonIds (subNames t) from rfl, canonIds, canonIdsAux_keys]
  · rw [show (specGraph t).ids = canonIds (subNames t) from rfl, canonIds, canonIdsAux_keys]
    exact dedupF_nodup _

theorem claim_C5_witness :
    parse_org_file mgrLines = some mgrTree ∧
    mgrTree.name = rootName ∧
    (∀ x ∈ subNames mgrTree, x ≠ rootName) ∧
    (generate_svg_chart mgrTree = specGraph mgrTree ∧
     (specGraph mgrTree).ids.map Prod.fst = dedupF (subNames mgrTree) ∧
     ((specGraph mgrTree).ids.map Prod.fst).Nodup) ∧
    (generate_svg_chart mgrTree).edgeStmts =
      [("node_0".toList, "node_1".toList), ("node_2".toList, "node_1".toList)] :=
  ⟨rfl, rfl, by decide, claim_C5 mgrTree rfl (by decide), by decide⟩
